import Mathlib

/-!
# BB84 quantum key distribution simulator — verification development

Shallow embedding of the core of `QKD_BB84_.py`.

Modelling decisions, all taken from the source:

* A qubit is represented, as in the source, by the single-qubit circuit
  that prepares it from |0⟩.  The only gates the program ever applies are
  Pauli-X, Hadamard and a barrier, so the reachable states form the
  four-element set {|0⟩, |1⟩, |+⟩, |−⟩} (closed under X and H up to a
  global phase, which is unobservable).  `QState` is that set and
  `runCircuit` is the exact quantum semantics of a gate list on it.
* A Z-basis measurement (what `qc.measure(0,0)` + `AerSimulator` perform)
  is deterministic on |0⟩/|1⟩ and a fair coin on |+⟩/|−⟩; the coin for
  slot `q` is taken from an explicit stream `aer : ℕ → Bool`, standing
  for the Aer backend's internal randomness (one `shots=1` run per slot,
  consumed in slot order).
* `np.random.random()` draws are an explicit stream `ℕ → ℚ` of values in
  `[0,1)`, consumed in loop order; `randint(2, size=n)` bit draws come
  from the same numpy global stream, modelled as a stream of `Draw`
  records exposing each position as a bit or as a real.
* Python `IndexError` (out-of-range `a[i]`) is modelled by `Option`:
  every indexing that can fail uses `l[i]?` and the loops short-circuit
  to `none` exactly where the Python loop would raise.
-/

inductive Gate : Type
  | x
  | h
  | barrier
deriving DecidableEq, Repr

abbrev Circuit := List Gate

/-- The four single-qubit states reachable from |0⟩ with X/H gates,
up to global phase: `z0` = |0⟩, `z1` = |1⟩, `plus` = |+⟩, `minus` = |−⟩. -/
inductive QState : Type
  | z0
  | z1
  | plus
  | minus
deriving DecidableEq, Repr

/-- Action of one gate on the four reachable states (exact single-qubit
unitaries restricted to this set; global phases dropped, they are
unobservable by the final Z measurement). -/
def applyGate : Gate → QState → QState
  | Gate.x, QState.z0 => QState.z1
  | Gate.x, QState.z1 => QState.z0
  | Gate.x, QState.plus => QState.plus
  | Gate.x, QState.minus => QState.minus
  | Gate.h, QState.z0 => QState.plus
  | Gate.h, QState.z1 => QState.minus
  | Gate.h, QState.plus => QState.z0
  | Gate.h, QState.minus => QState.z1
  | Gate.barrier, s => s

/-- State prepared by a circuit from |0⟩. -/
def runCircuit (qc : Circuit) : QState :=
  qc.foldl (fun s g => applyGate g s) QState.z0

/-- Outcome of a Z-basis measurement: deterministic on |0⟩/|1⟩, a fair
coin on |+⟩/|−⟩ (the coin is the simulator's random draw for this shot). -/
def measureZ : QState → Bool → Bool
  | QState.z0, _ => false
  | QState.z1, _ => true
  | QState.plus, coin => coin
  | QState.minus, coin => coin

/-- Constant `NUM_QUBITS = 32` (line 18 of the source). -/
def NUM_QUBITS : Nat := 32

/-- Body of the `encode_message` loop for one slot (lines 47–58):
basis 0 (Z / rectilinear): bit 1 gets an X; basis 1 (X / diagonal):
bit 0 gets an H, bit 1 gets X then H; then a barrier.
Bits and bases are booleans: `false` = 0 = Z/rectilinear,
`true` = 1 = X/diagonal. -/
def encodeQubit (bit basisChoice : Bool) : Circuit :=
  (if basisChoice = false then
    (if bit = true then [Gate.x] else [])
   else
    (if bit = false then [Gate.h] else [Gate.x, Gate.h])) ++ [Gate.barrier]

/-- Evaluate `f` at `i, i+1, ..., i+n-1` in order, collecting the results;
`none` as soon as one call fails.  This is the shape of every
`for q in range(...)` loop of the source whose body can raise IndexError. -/
def optRange (f : Nat → Option α) : Nat → Nat → Option (List α)
  | _, 0 => some []
  | i, n + 1 => do
    let v ← f i
    let rest ← optRange f (i + 1) n
    pure (v :: rest)

/-- Evaluate `f` at each listed index in order; `none` on the first failure. -/
def optList (f : Nat → Option α) : List Nat → Option (List α)
  | [] => some []
  | q :: qs => do
    let v ← f q
    let rest ← optList f qs
    pure (v :: rest)

/-- Embedding of `encode_message` (lines 34–59): builds one circuit per slot
`i ∈ range(NUM_QUBITS)`, reading `basis[i]` and `bits[i]` — an
IndexError (here: `none`) if either array is shorter than 32. -/
def encode_message (bits basis : List Bool) : Option (List Circuit) :=
  optRange (fun i => do
    let b ← basis[i]?
    let v ← bits[i]?
    pure (encodeQubit v b)) 0 NUM_QUBITS

/-- Recursion of `simulate_quantum_channel` (lines 73–78): one
`np.random.random()` draw per circuit, in list order; a draw below
`error_rate` appends an X gate. -/
def channelAux (error_rate : ℚ) (rand : Nat → ℚ) : Nat → List Circuit → List Circuit
  | _, [] => []
  | i, qc :: rest =>
      (if rand i < error_rate then qc ++ [Gate.x] else qc) ::
        channelAux error_rate rand (i + 1) rest

/-- Embedding of `simulate_quantum_channel` (lines 62–78).  `rand i` is the i-th
`np.random.random()` draw (a value in `[0,1)`).  In the source,
`qc.x(0)` mutates the incoming circuit object and
`noisy_message.append(qc)` appends that same object, so the returned
circuits ARE the input circuits (see `channel_input_after_call`). -/
def simulate_quantum_channel (message : List Circuit) (error_rate : ℚ)
    (rand : Nat → ℚ) : List Circuit :=
  channelAux error_rate rand 0 message

/-- What the caller's `message` list denotes after
`simulate_quantum_channel` returns: since line 76 (`qc.x(0)`) mutates
the circuit objects in place and line 77 appends those same objects,
each element of the input list denotes the corresponding noisy circuit
after the call. -/
def channel_input_after_call (message : List Circuit) (error_rate : ℚ)
    (rand : Nat → ℚ) : List Circuit :=
  simulate_quantum_channel message error_rate rand

/-- Per-slot body of `measure_message` (lines 95–99): append an H when
measuring in the X basis, then measure in Z; `coin` is the Aer draw for
this one-shot run. -/
def measureQubit (qc : Circuit) (basisChoice : Bool) (coin : Bool) : Bool :=
  measureZ (runCircuit (qc ++ (if basisChoice then [Gate.h] else []))) coin

/-- Embedding of `measure_message` (lines 81–100): loops over `range(NUM_QUBITS)`,
reading `basis[q]` and `message[q]` — IndexError (`none`) if either is
shorter than 32.  `aer q` is the simulator's coin for slot `q`. -/
def measure_message (message : List Circuit) (basis : List Bool)
    (aer : Nat → Bool) : Option (List Bool) :=
  optRange (fun q => do
    let b ← basis[q]?
    let qc ← message[q]?
    pure (measureQubit qc b (aer q))) 0 NUM_QUBITS

/-- The list comprehension of line 115: indices `q ∈ range(NUM_QUBITS)`
with `a_basis[q] == b_basis[q]`, reading both arrays at every `q`. -/
def matchPos (a_basis b_basis : List Bool) : Nat → Nat → Option (List Nat)
  | _, 0 => some []
  | q, n + 1 => do
    let a ← a_basis[q]?
    let b ← b_basis[q]?
    let rest ← matchPos a_basis b_basis (q + 1) n
    pure (if a = b then q :: rest else rest)

/-- Embedding of `remove_garbage` (lines 103–117): keep `bits[q]` for every
`q ∈ range(NUM_QUBITS)` where the two basis arrays agree.  `bits[q]` is
read only at the matching positions (line 117). -/
def remove_garbage (a_basis b_basis bits : List Bool) : Option (List Bool) := do
  let ps ← matchPos a_basis b_basis 0 NUM_QUBITS
  optList (fun q => bits[q]?) ps

/-- Embedding of `check_keys` (lines 120–139): the printed verdict is driven by the
Python comparison `key1 == key2` (line 136), which on lists is
element-wise equality (false on mismatched lengths, no exception). -/
def check_keys (key1 key2 : List Bool) : Bool :=
  decide (key1 = key2)

/-- Per-slot body of `simulate_eavesdropping_detailed` (lines 158–192):
measure a deep copy of the incoming circuit in Eve's basis (same rule as
`measure_message`), re-encode from the measured value in Eve's basis
(lines 175–184 — note: no barrier, unlike `encode_message`), then append
an X when Eve's error draw fires (lines 187–188). -/
def eveQubit (qc : Circuit) (eveBasisChoice : Bool) (coin : Bool)
    (draw error_rate : ℚ) : Circuit × Bool :=
  let m := measureQubit qc eveBasisChoice coin
  let reenc : Circuit :=
    if eveBasisChoice then
      (if m then [Gate.x, Gate.h] else [Gate.h])
    else
      (if m then [Gate.x] else [])
  ((if draw < error_rate then reenc ++ [Gate.x] else reenc), m)

/-- Embedding of `simulate_eavesdropping_detailed` (lines 142–194): loops
`i ∈ range(len(message))`; `alice_basis[i]` and `eavesdropper_basis[i]`
are read for every slot (lines 161–162), raising IndexError (`none`)
when out of range; `message[i]` is always in range.  Returns the
forwarded circuits (the source overwrites `message[i]` with the
re-encoded circuit) and Eve's recorded measurements. -/
def simulate_eavesdropping_detailed (message : List Circuit)
    (eavesdropper_basis alice_basis : List Bool) (error_rate : ℚ)
    (coins : Nat → Bool) (draws : Nat → ℚ) :
    Option (List Circuit × List Bool) := do
  let res ← optRange (fun i => do
    let _a ← alice_basis[i]?
    let eb ← eavesdropper_basis[i]?
    let qc ← message[i]?
    pure (eveQubit qc eb (coins i) (draws i) error_rate)) 0 message.length
  pure (res.map Prod.fst, res.map Prod.snd)

/-- One position of the numpy global random stream, usable either as a
`randint(2)` bit or as a `random()` real in `[0,1)` (both draw from the
same global generator, in program order). -/
structure Draw : Type where
  asBit : Bool
  asReal : ℚ
deriving DecidableEq, Repr

/-- Embedding of `generate_bits` (lines 21–31) reading `n` bit draws starting at
stream position `off`. -/
def generate_bits (np : Nat → Draw) (off n : Nat) : List Bool :=
  (List.range n).map (fun i => (np (off + i)).asBit)

/-- The BB84 pipeline of `quantum_communication` (lines 239–249) with
the three classical sequences given as parameters: encode, channel
noise, Bob's measurement, and the two sifted keys. -/
def bb84_round (alice_bits alice_basis bob_basis : List Bool)
    (error_rate : ℚ) (rand : Nat → ℚ) (aer : Nat → Bool) :
    Option (List Bool × List Bool) := do
  let message ← encode_message alice_bits alice_basis
  let noisy := simulate_quantum_channel message error_rate rand
  let bob_results ← measure_message noisy bob_basis aer
  let alice_key ← remove_garbage alice_basis bob_basis alice_bits
  let bob_key ← remove_garbage alice_basis bob_basis bob_results
  pure (alice_key, bob_key)

/-- One iteration of the `quantum_communication` loop (lines 231–253):
draw Alice's bits (numpy stream positions 0–31), Alice's bases (32–63),
transmit through the channel (one `random()` draw per slot, positions
64–95), draw Bob's bases (96–127), measure (Aer coins 0–31), sift both
sides and compare.  Returns every printed sequence plus the key verdict. -/
def quantum_communication_run (error_rate : ℚ) (np : Nat → Draw)
    (aer : Nat → Bool) :
    Option (List Bool × List Bool × List Bool × List Bool ×
            List Bool × List Bool × Bool) := do
  let alice_bits := generate_bits np 0 NUM_QUBITS
  let alice_basis := generate_bits np 32 NUM_QUBITS
  let message ← encode_message alice_bits alice_basis
  let noisy := simulate_quantum_channel message error_rate
    (fun i => (np (64 + i)).asReal)
  let bob_basis := generate_bits np 96 NUM_QUBITS
  let bob_results ← measure_message noisy bob_basis aer
  let alice_key ← remove_garbage alice_basis bob_basis alice_bits
  let bob_key ← remove_garbage alice_basis bob_basis bob_results
  pure (alice_bits, alice_basis, bob_basis, bob_results,
        alice_key, bob_key, check_keys alice_key bob_key)

/-- The sifted key as the spec describes it, restricted to the first
`NUM_QUBITS` slots (the only slots the code visits): the bits at the
positions where the two basis sequences agree, in ascending index
order. -/
def siftedRef (a_basis b_basis bits : List Bool) : List Bool :=
  ((List.range' 0 NUM_QUBITS).filter
    (fun q => a_basis.getD q false == b_basis.getD q false)).map
    (fun q => bits.getD q false)

/-! ## Loop combinator lemmas -/

theorem optRange_length (f : Nat → Option α) :
    ∀ n i l, optRange f i n = some l → l.length = n := by
  intro n
  induction n with
  | zero =>
    intro i l hl
    simp only [optRange] at hl
    cases hl
    rfl
  | succ n ih =>
    intro i l hl
    simp only [optRange, Option.bind_eq_bind, Option.bind_eq_some,
      Option.pure_def, Option.some.injEq] at hl
    obtain ⟨v, _, rest, hrest, hcons⟩ := hl
    subst hcons
    simp [ih (i + 1) rest hrest]

theorem optRange_get (f : Nat → Option α) :
    ∀ n i l, optRange f i n = some l →
      ∀ j (hj : j < l.length), f (i + j) = some (l.get ⟨j, hj⟩) := by
  intro n
  induction n with
  | zero =>
    intro i l hl j hj
    simp only [optRange] at hl
    cases hl
    simp at hj
  | succ n ih =>
    intro i l hl j hj
    simp only [optRange, Option.bind_eq_bind, Option.bind_eq_some,
      Option.pure_def, Option.some.injEq] at hl
    obtain ⟨v, hv, rest, hrest, hcons⟩ := hl
    subst hcons
    match j with
    | 0 => simpa using hv
    | j + 1 =>
      have := ih (i + 1) rest hrest j (by simpa using Nat.lt_of_succ_lt_succ hj)
      rw [show i + (j + 1) = i + 1 + j by omega]
      simpa using this

theorem optRange_eq_some (f : Nat → Option α) (g : Nat → α) :
    ∀ n i, (∀ j, j < n → f (i + j) = some (g (i + j))) →
      optRange f i n = some ((List.range' i n).map g) := by
  intro n
  induction n with
  | zero => intro i _; simp [optRange]
  | succ n ih =>
    intro i hfg
    have h0 : f i = some (g i) := by simpa using hfg 0 (Nat.succ_pos n)
    have hrec : optRange f (i + 1) n = some ((List.range' (i + 1) n).map g) := by
      apply ih
      intro j hj
      have := hfg (j + 1) (by omega)
      rwa [show i + (j + 1) = i + 1 + j by omega] at this
    simp [optRange, h0, hrec, List.range'_succ]

theorem optRange_none (f : Nat → Option α) :
    ∀ n i j, i ≤ j → j < i + n → f j = none → optRange f i n = none := by
  intro n
  induction n with
  | zero => intro i j h1 h2 _; omega
  | succ n ih =>
    intro i j h1 h2 hnone
    by_cases hij : j = i
    · subst hij
      simp [optRange, hnone]
    · have : optRange f (i + 1) n = none := ih (i + 1) j (by omega) (by omega) hnone
      simp only [optRange, Option.bind_eq_bind, this]
      cases f i <;> simp

theorem optRange_congr (f g : Nat → Option α) :
    ∀ n i, (∀ j, i ≤ j → j < i + n → f j = g j) →
      optRange f i n = optRange g i n := by
  intro n
  induction n with
  | zero => intro i _; simp [optRange]
  | succ n ih =>
    intro i hfg
    have h0 : f i = g i := hfg i (Nat.le_refl i) (by omega)
    have hrec : optRange f (i + 1) n = optRange g (i + 1) n := by
      apply ih
      intro j hj1 hj2
      exact hfg j (by omega) (by omega)
    simp [optRange, h0, hrec]

theorem optList_eq_some (f : Nat → Option α) (g : Nat → α) :
    ∀ ps : List Nat, (∀ q ∈ ps, f q = some (g q)) →
      optList f ps = some (ps.map g) := by
  intro ps
  induction ps with
  | nil => intro _; simp [optList]
  | cons q qs ih =>
    intro hmem
    have h0 : f q = some (g q) := hmem q (List.mem_cons_self q qs)
    have hrec := ih (fun r hr => hmem r (List.mem_cons_of_mem q hr))
    simp [optList, h0, hrec]

theorem optList_length (f : Nat → Option α) :
    ∀ ps l, optList f ps = some l → l.length = ps.length := by
  intro ps
  induction ps with
  | nil =>
    intro l hl
    simp only [optList] at hl
    cases hl
    rfl
  | cons q qs ih =>
    intro l hl
    simp only [optList, Option.bind_eq_bind, Option.bind_eq_some,
      Option.pure_def, Option.some.injEq] at hl
    obtain ⟨v, _, rest, hrest, hcons⟩ := hl
    subst hcons
    simp [ih rest hrest]

/-! ## Channel lemmas -/

theorem channelAux_length (error_rate : ℚ) (rand : Nat → ℚ) :
    ∀ l i, (channelAux error_rate rand i l).length = l.length := by
  intro l
  induction l with
  | nil => intro i; rfl
  | cons qc rest ih => intro i; simp [channelAux, ih]

theorem channelAux_get (error_rate : ℚ) (rand : Nat → ℚ) :
    ∀ l i j (hj : j < l.length),
      (channelAux error_rate rand i l).getD j [] =
        (if rand (i + j) < error_rate then l.get ⟨j, hj⟩ ++ [Gate.x]
         else l.get ⟨j, hj⟩) := by
  intro l
  induction l with
  | nil => intro i j hj; simp at hj
  | cons qc rest ih =>
    intro i j hj
    match j with
    | 0 => simp [channelAux]
    | j + 1 =>
      have := ih (i + 1) j (by simpa using Nat.lt_of_succ_lt_succ hj)
      rw [show i + (j + 1) = i + 1 + j by omega]
      simpa [channelAux] using this

theorem channelAux_nonpos (error_rate : ℚ) (rand : Nat → ℚ)
    (her : error_rate ≤ 0) (hrand : ∀ j, 0 ≤ rand j) :
    ∀ l i, channelAux error_rate rand i l = l := by
  intro l
  induction l with
  | nil => intro i; rfl
  | cons qc rest ih =>
    intro i
    have : ¬ rand i < error_rate := not_lt.mpr (le_trans her (hrand i))
    simp [channelAux, this, ih]

theorem channelAux_ge_one (error_rate : ℚ) (rand : Nat → ℚ)
    (her : 1 ≤ error_rate) (hrand : ∀ j, rand j < 1) :
    ∀ l i, channelAux error_rate rand i l = l.map (fun qc => qc ++ [Gate.x]) := by
  intro l
  induction l with
  | nil => intro i; rfl
  | cons qc rest ih =>
    intro i
    have : rand i < error_rate := lt_of_lt_of_le (hrand i) her
    simp [channelAux, this, ih]

theorem channelAux_congr (error_rate : ℚ) (rand₁ rand₂ : Nat → ℚ) :
    ∀ l i, (∀ j, i ≤ j → j < i + l.length → rand₁ j = rand₂ j) →
      channelAux error_rate rand₁ i l = channelAux error_rate rand₂ i l := by
  intro l
  induction l with
  | nil => intro i _; rfl
  | cons qc rest ih =>
    intro i hr
    have h0 : rand₁ i = rand₂ i := hr i (Nat.le_refl i) (by simp)
    have hrec := ih (i + 1) (fun j h1 h2 => hr j (by omega) (by simpa using by omega))
    simp [channelAux, h0, hrec]

/-! ## Sifter lemmas -/

theorem matchPos_eq_some (a b : List Bool) :
    ∀ n q, (∀ j, j < n → q + j < a.length ∧ q + j < b.length) →
      matchPos a b q n =
        some ((List.range' q n).filter
          (fun i => a.getD i false == b.getD i false)) := by
  intro n
  induction n with
  | zero => intro q _; simp [matchPos]
  | succ n ih =>
    intro q hlen
    have hq : q < a.length ∧ q < b.length := by simpa using hlen 0 (Nat.succ_pos n)
    have ha : a[q]? = some (a.getD q false) := by
      rw [List.getElem?_eq_getElem hq.1, List.getD_eq_getElem a false hq.1]
    have hb : b[q]? = some (b.getD q false) := by
      rw [List.getElem?_eq_getElem hq.2, List.getD_eq_getElem b false hq.2]
    have hrec := ih (q + 1) (fun j hj => by
      have := hlen (j + 1) (by omega)
      constructor <;> omega)
    simp only [matchPos, ha, hb, hrec, Option.bind_eq_bind, Option.some_bind,
      List.range'_succ, List.filter_cons]
    by_cases hab : a.getD q false = b.getD q false
    · simp [hab]
    · simp [hab, beq_iff_eq]

theorem matchPos_none (a b : List Bool) :
    ∀ n q j, q ≤ j → j < q + n → (a.length ≤ j ∨ b.length ≤ j) →
      matchPos a b q n = none := by
  intro n
  induction n with
  | zero => intro q j h1 h2 _; omega
  | succ n ih =>
    intro q j h1 h2 hout
    by_cases hqj : j = q
    · subst hqj
      rcases hout with hja | hjb
      · simp [matchPos, List.getElem?_eq_none hja]
      · cases ha : a[j]? <;> simp [matchPos, ha, List.getElem?_eq_none hjb]
    · have hrec : matchPos a b (q + 1) n = none :=
        ih (q + 1) j (by omega) (by omega) hout
      cases ha : a[q]? <;> cases hb : b[q]? <;> simp [matchPos, ha, hb, hrec]

theorem getElem?_eq_some_getD (l : List α) (i : Nat) (d : α) (h : i < l.length) :
    l[i]? = some (l.getD i d) := by
  rw [List.getElem?_eq_getElem h, List.getD_eq_getElem l d h]

theorem range'_map_getD (g : Nat → α) (d : α) :
    ∀ n s j, j < n → ((List.range' s n).map g).getD j d = g (s + j) := by
  intro n
  induction n with
  | zero => intro s j hj; omega
  | succ n ih =>
    intro s j hj
    match j with
    | 0 => simp [List.range'_succ]
    | j + 1 =>
      have := ih (s + 1) j (by omega)
      rw [show s + (j + 1) = s + 1 + j by omega]
      simpa [List.range'_succ] using this

/-- The core measurement rule: measuring a qubit in the basis it was
encoded in returns the encoded bit, whatever the simulator's coin. -/
theorem measureQubit_encodeQubit_same (b c coin : Bool) :
    measureQubit (encodeQubit b c) c coin = b := by
  cases b <;> cases c <;> cases coin <;> rfl

/-! ## Pipeline stage lemmas -/

theorem encode_message_eq_some (bits basis : List Bool)
    (h1 : NUM_QUBITS ≤ bits.length) (h2 : NUM_QUBITS ≤ basis.length) :
    encode_message bits basis =
      some ((List.range' 0 NUM_QUBITS).map
        (fun i => encodeQubit (bits.getD i false) (basis.getD i false))) := by
  apply optRange_eq_some
  intro j hj
  simp only [Nat.zero_add]
  rw [getElem?_eq_some_getD basis j false (by omega),
    getElem?_eq_some_getD bits j false (by omega)]
  rfl

theorem measure_message_eq_some (message : List Circuit) (basis : List Bool)
    (aer : Nat → Bool)
    (h1 : NUM_QUBITS ≤ message.length) (h2 : NUM_QUBITS ≤ basis.length) :
    measure_message message basis aer =
      some ((List.range' 0 NUM_QUBITS).map
        (fun q => measureQubit (message.getD q []) (basis.getD q false) (aer q))) := by
  apply optRange_eq_some
  intro j hj
  simp only [Nat.zero_add]
  rw [getElem?_eq_some_getD basis j false (by omega),
    getElem?_eq_some_getD message j [] (by omega)]
  rfl

theorem remove_garbage_eq_some (a_basis b_basis bits : List Bool)
    (h1 : NUM_QUBITS ≤ a_basis.length) (h2 : NUM_QUBITS ≤ b_basis.length)
    (hbits : ∀ q, q < NUM_QUBITS →
      a_basis.getD q false = b_basis.getD q false → q < bits.length) :
    remove_garbage a_basis b_basis bits = some (siftedRef a_basis b_basis bits) := by
  have hps := matchPos_eq_some a_basis b_basis NUM_QUBITS 0
    (fun j hj => ⟨by omega, by omega⟩)
  have hmem : ∀ q ∈ (List.range' 0 NUM_QUBITS).filter
      (fun i => a_basis.getD i false == b_basis.getD i false),
      q < NUM_QUBITS ∧ a_basis.getD q false = b_basis.getD q false := by
    intro q hq
    rw [List.mem_filter] at hq
    obtain ⟨hqr, hqp⟩ := hq
    rw [List.mem_range'_1] at hqr
    exact ⟨by omega, beq_iff_eq.mp hqp⟩
  have hlist : optList (fun q => bits[q]?)
      ((List.range' 0 NUM_QUBITS).filter
        (fun i => a_basis.getD i false == b_basis.getD i false)) =
      some (((List.range' 0 NUM_QUBITS).filter
        (fun i => a_basis.getD i false == b_basis.getD i false)).map
        (fun q => bits.getD q false)) := by
    apply optList_eq_some
    intro q hq
    obtain ⟨hq1, hq2⟩ := hmem q hq
    exact getElem?_eq_some_getD bits q false (hbits q hq1 hq2)
  simp only [remove_garbage, hps, Option.bind_eq_bind, Option.some_bind]
  simpa [siftedRef] using hlist

/-- Master lemma: under a noiseless channel (`error_rate = 0`, draws in
`[0,1)`) and no eavesdropper, both sifted keys equal the reference
sifted key of Alice's bits, hence each other. -/
theorem bb84_round_zero_noise (bits basis bob : List Bool)
    (rand : Nat → ℚ) (aer : Nat → Bool)
    (h1 : NUM_QUBITS ≤ bits.length) (h2 : NUM_QUBITS ≤ basis.length)
    (h3 : NUM_QUBITS ≤ bob.length) (hrand : ∀ i, 0 ≤ rand i) :
    bb84_round bits basis bob 0 rand aer =
      some (siftedRef basis bob bits, siftedRef basis bob bits) := by
  have hE := encode_message_eq_some bits basis h1 h2
  set M := (List.range' 0 NUM_QUBITS).map
    (fun i => encodeQubit (bits.getD i false) (basis.getD i false)) with hM
  have hMlen : M.length = NUM_QUBITS := by simp [hM]
  have hchan : simulate_quantum_channel M 0 rand = M :=
    channelAux_nonpos 0 rand (le_refl 0) hrand M 0
  have hMeas := measure_message_eq_some M bob aer (by omega) h3
  set R := (List.range' 0 NUM_QUBITS).map
    (fun q => measureQubit (M.getD q []) (bob.getD q false) (aer q)) with hR
  have hRlen : R.length = NUM_QUBITS := by simp [hR]
  have hAlice := remove_garbage_eq_some basis bob bits h2 h3
    (fun q hq _ => by omega)
  have hBob := remove_garbage_eq_some basis bob R h2 h3
    (fun q hq _ => by omega)
  have hmem : ∀ q ∈ (List.range' 0 NUM_QUBITS).filter
      (fun i => basis.getD i false == bob.getD i false),
      q < NUM_QUBITS ∧ basis.getD q false = bob.getD q false := by
    intro q hq
    rw [List.mem_filter] at hq
    obtain ⟨hqr, hqp⟩ := hq
    rw [List.mem_range'_1] at hqr
    exact ⟨by omega, beq_iff_eq.mp hqp⟩
  have hkeyeq : siftedRef basis bob R = siftedRef basis bob bits := by
    apply List.map_congr_left
    intro q hq
    obtain ⟨hq32, hqeq⟩ := hmem q hq
    rw [hR, range'_map_getD _ false NUM_QUBITS 0 q hq32]
    simp only [Nat.zero_add]
    rw [hM, range'_map_getD _ [] NUM_QUBITS 0 q hq32]
    simp only [Nat.zero_add]
    rw [← hqeq]
    exact measureQubit_encodeQubit_same _ _ _
  rw [show (0 : ℚ) = ((0 : ℚ)) from rfl] at hchan
  simp only [bb84_round, hE, Option.bind_eq_bind, Option.some_bind, hchan,
    hMeas, ← hR, hAlice, hBob, hkeyeq, Option.pure_def]

/-! ## Claims -/

/-- C1 counterexample: the claim quantifies over every length N, but the
pipeline hard-codes `NUM_QUBITS = 32` loops, so on empty sequences the
very first stage raises an IndexError (`none`) and no sifted keys are
produced at all. -/
theorem c1_counterexample :
    bb84_round [] [] [] 0 (fun _ => 0) (fun _ => false) = none := by
  decide

/-- C1 (amended): for input sequences of length ≥ NUM_QUBITS = 32 (the
only lengths the hard-coded loops accept), running the pipeline with
errorRate = 0 and no eavesdropper yields a receiver sifted key exactly
equal to the sender sifted key. -/
theorem c1_no_error_round_trip (bits basis bob_basis : List Bool)
    (rand : Nat → ℚ) (aer : Nat → Bool)
    (h1 : NUM_QUBITS ≤ bits.length) (h2 : NUM_QUBITS ≤ basis.length)
    (h3 : NUM_QUBITS ≤ bob_basis.length) (hrand : ∀ i, 0 ≤ rand i) :
    ∃ k, bb84_round bits basis bob_basis 0 rand aer = some (k, k) :=
  ⟨siftedRef basis bob_basis bits,
    bb84_round_zero_noise bits basis bob_basis rand aer h1 h2 h3 hrand⟩

/-- C1 witness at concrete length-32 inputs. -/
theorem c1_no_error_round_trip_witness :
    ∃ k, bb84_round (List.replicate 32 false) (List.replicate 32 false)
      (List.replicate 32 false) 0 (fun _ => 0) (fun _ => false) = some (k, k) :=
  c1_no_error_round_trip (List.replicate 32 false) (List.replicate 32 false)
    (List.replicate 32 false) (fun _ => 0) (fun _ => false)
    (by decide) (by decide) (by decide) (fun _ => le_refl 0)

/-- C2: measuring a qubit in the basis it was encoded in returns the
encoded bit with certainty — for every bit, basis choice and simulator
coin, so no randomness is involved in the outcome. -/
theorem c2_matching_basis_fidelity (b c coin : Bool) :
    measureQubit (encodeQubit b c) c coin = b :=
  measureQubit_encodeQubit_same b c coin

/-- C3 counterexample: the claim includes length 0, but the sifter loops
over `range(NUM_QUBITS)` regardless of input length, so on empty
sequences it raises an IndexError (`none`) instead of returning the
empty key. -/
theorem c3_counterexample : remove_garbage [] [] [] = none := by
  decide

/-- C3 (amended): for every triple of equal-length sequences of length
≥ NUM_QUBITS = 32, sift returns exactly `bits[i]` for the indices
`i < 32` where the bases agree, in ascending index order, and its result
length equals the number of agreeing positions among the first 32. -/
theorem c3_sift_exact (a_basis b_basis bits : List Bool) (n : Nat)
    (ha : a_basis.length = n) (hb : b_basis.length = n)
    (hbits : bits.length = n) (hn : NUM_QUBITS ≤ n) :
    remove_garbage a_basis b_basis bits = some (siftedRef a_basis b_basis bits) ∧
    (siftedRef a_basis b_basis bits).length =
      (List.range' 0 NUM_QUBITS).countP
        (fun q => a_basis.getD q false == b_basis.getD q false) := by
  refine ⟨remove_garbage_eq_some a_basis b_basis bits (by omega) (by omega)
    (fun q hq _ => by omega), ?_⟩
  simp [siftedRef, List.countP_eq_length_filter]

/-- C3 witness at concrete length-32 inputs. -/
theorem c3_sift_exact_witness :
    remove_garbage (List.replicate 32 false) (List.replicate 32 false)
      (List.replicate 32 true) =
      some (siftedRef (List.replicate 32 false) (List.replicate 32 false)
        (List.replicate 32 true)) ∧
    (siftedRef (List.replicate 32 false) (List.replicate 32 false)
      (List.replicate 32 true)).length =
      (List.range' 0 NUM_QUBITS).countP
        (fun q => (List.replicate 32 false).getD q false ==
          (List.replicate 32 false).getD q false) :=
  c3_sift_exact (List.replicate 32 false) (List.replicate 32 false)
    (List.replicate 32 true) 32 (by decide) (by decide) (by decide) (by decide)

/-- C5 counterexample: the channel does not leave the input sequence
denoting the pre-noise states — line 76 mutates the circuit objects in
place and line 77 forwards those same objects, so with a firing draw the
input's element gains an X gate. -/
theorem c5_counterexample :
    channel_input_after_call [[]] 1 (fun _ => 0) ≠ [[]] := by
  decide

/-- C5 (amended): errorRate = 0 is a no-op pass-through (no draw in
`[0,1)` is below 0), but the channel mutates its input circuits in
place: after the call the input elements denote the returned noisy
circuits, which coincide with the pre-noise ones only when no flip
fired — in particular they do coincide at errorRate = 0. -/
theorem c5_zero_rate_noop (message : List Circuit) (rand : Nat → ℚ)
    (hrand : ∀ i, 0 ≤ rand i) :
    simulate_quantum_channel message 0 rand = message ∧
    channel_input_after_call message 0 rand = message :=
  ⟨channelAux_nonpos 0 rand (le_refl 0) hrand message 0,
   channelAux_nonpos 0 rand (le_refl 0) hrand message 0⟩

/-- C5 witness at a concrete one-circuit message. -/
theorem c5_zero_rate_noop_witness :
    simulate_quantum_channel [[Gate.x]] 0 (fun _ => 0) = [[Gate.x]] ∧
    channel_input_after_call [[Gate.x]] 0 (fun _ => 0) = [[Gate.x]] :=
  c5_zero_rate_noop [[Gate.x]] (fun _ => 0) (fun _ => le_refl 0)

/-- C7 counterexample: on the scenario's length-4 sequences the sifter
raises an IndexError (`none`) at slot 4 — the loop is hard-coded to 32
slots — so it does not return the key [1,1] the claim describes. -/
theorem c7_counterexample :
    remove_garbage [false, false, true, true] [false, true, true, false]
      [true, false, true, false] = none := by
  decide

/-- C7 (amended): the scenario extended to the 32 slots the code
processes (slots 4–31 given disagreeing bases so they are sifted out):
sift keeps exactly indices 0 and 2, the sender sifted key is [1,1], and
with a noiseless channel and no eavesdropper the receiver sifted key is
also [1,1], for every measurement coin stream. -/
theorem c7_scenario (rand : Nat → ℚ) (aer : Nat → Bool)
    (hrand : ∀ i, 0 ≤ rand i) :
    matchPos ([false, false, true, true] ++ List.replicate 28 false)
      ([false, true, true, false] ++ List.replicate 28 true) 0 NUM_QUBITS =
      some [0, 2] ∧
    remove_garbage ([false, false, true, true] ++ List.replicate 28 false)
      ([false, true, true, false] ++ List.replicate 28 true)
      ([true, false, true, false] ++ List.replicate 28 false) =
      some [true, true] ∧
    bb84_round ([true, false, true, false] ++ List.replicate 28 false)
      ([false, false, true, true] ++ List.replicate 28 false)
      ([false, true, true, false] ++ List.replicate 28 true) 0 rand aer =
      some ([true, true], [true, true]) := by
  refine ⟨by decide, by decide, ?_⟩
  have h := bb84_round_zero_noise
    ([true, false, true, false] ++ List.replicate 28 false)
    ([false, false, true, true] ++ List.replicate 28 false)
    ([false, true, true, false] ++ List.replicate 28 true) rand aer
    (by decide) (by decide) (by decide) hrand
  rw [h]
  decide

/-- C7 witness at concrete streams. -/
theorem c7_scenario_witness :
    matchPos ([false, false, true, true] ++ List.replicate 28 false)
      ([false, true, true, false] ++ List.replicate 28 true) 0 NUM_QUBITS =
      some [0, 2] ∧
    remove_garbage ([false, false, true, true] ++ List.replicate 28 false)
      ([false, true, true, false] ++ List.replicate 28 true)
      ([true, false, true, false] ++ List.replicate 28 false) =
      some [true, true] ∧
    bb84_round ([true, false, true, false] ++ List.replicate 28 false)
      ([false, false, true, true] ++ List.replicate 28 false)
      ([false, true, true, false] ++ List.replicate 28 true) 0 (fun _ => 0)
      (fun _ => false) = some ([true, true], [true, true]) :=
  c7_scenario (fun _ => 0) (fun _ => false) (fun _ => le_refl 0)

/-- C9: for equal-length keys the comparator's verdict (the Python
`key1 == key2` of line 136) is exactly element-wise equality; the
comparison is a pure function of the two keys, so neither is mutated. -/
theorem c9_compare_elementwise (key1 key2 : List Bool)
    (hlen : key1.length = key2.length) :
    check_keys key1 key2 = true ↔
      ∀ (i : Nat) (h1 : i < key1.length) (h2 : i < key2.length),
        key1.get ⟨i, h1⟩ = key2.get ⟨i, h2⟩ := by
  constructor
  · intro h i h1 h2
    have heq : key1 = key2 := of_decide_eq_true h
    subst heq
    rfl
  · intro h
    exact decide_eq_true (List.ext_get hlen h)

/-- C9 witness at concrete equal-length keys. -/
theorem c9_compare_elementwise_witness :
    check_keys [true, false] [true, false] = true ↔
      ∀ (i : Nat) (h1 : i < ([true, false] : List Bool).length)
        (h2 : i < ([true, false] : List Bool).length),
        ([true, false] : List Bool).get ⟨i, h1⟩ =
          ([true, false] : List Bool).get ⟨i, h2⟩ :=
  c9_compare_elementwise [true, false] [true, false] rfl

/-- C6: a full `quantum_communication` iteration reads the numpy stream
only at positions 0–127 (bits, bases, channel draws, in fixed slot
order) and the simulator stream only at slots 0–31, so two runs with
identical parameters whose streams agree on those positions produce
identical outputs bit-for-bit — in particular, fixed seeds reproduce
the run. -/
theorem c6_deterministic (error_rate : ℚ) (np1 np2 : Nat → Draw)
    (aer1 aer2 : Nat → Bool)
    (hnp : ∀ i, i < 128 → np1 i = np2 i)
    (haer : ∀ q, q < NUM_QUBITS → aer1 q = aer2 q) :
    quantum_communication_run error_rate np1 aer1 =
      quantum_communication_run error_rate np2 aer2 := by
  have h32 : NUM_QUBITS = 32 := rfl
  have hgen : ∀ off n, off + n ≤ 128 →
      generate_bits np1 off n = generate_bits np2 off n := by
    intro off n hn
    unfold generate_bits
    apply List.map_congr_left
    intro i hi
    rw [List.mem_range] at hi
    rw [hnp (off + i) (by omega)]
  have hb0 := hgen 0 NUM_QUBITS (by omega)
  have hb32 := hgen 32 NUM_QUBITS (by omega)
  have hb96 := hgen 96 NUM_QUBITS (by omega)
  unfold quantum_communication_run
  rw [hb0, hb32, hb96]
  cases hE : encode_message (generate_bits np2 0 NUM_QUBITS)
      (generate_bits np2 32 NUM_QUBITS) with
  | none => simp [hE]
  | some M =>
    have hMlen : M.length = NUM_QUBITS := optRange_length _ _ _ _ hE
    have hchan : simulate_quantum_channel M error_rate
        (fun i => (np1 (64 + i)).asReal) =
        simulate_quantum_channel M error_rate
          (fun i => (np2 (64 + i)).asReal) := by
      apply channelAux_congr
      intro j hj1 hj2
      rw [hnp (64 + j) (by omega)]
    have hmeas : measure_message
        (simulate_quantum_channel M error_rate (fun i => (np2 (64 + i)).asReal))
        (generate_bits np2 96 NUM_QUBITS) aer1 =
        measure_message
          (simulate_quantum_channel M error_rate (fun i => (np2 (64 + i)).asReal))
          (generate_bits np2 96 NUM_QUBITS) aer2 := by
      unfold measure_message
      apply optRange_congr
      intro j hj1 hj2
      rw [haer j (by omega)]
    simp only [hE, Option.bind_eq_bind, Option.some_bind]
    rw [hchan, hmeas]

/-- C6 witness: two streams that agree on the consumed prefix but differ
beyond it yield identical runs. -/
theorem c6_deterministic_witness :
    quantum_communication_run 0 (fun _ => ⟨false, 0⟩) (fun _ => false) =
      quantum_communication_run 0
        (fun i => if i < 128 then ⟨false, 0⟩ else ⟨true, 1⟩)
        (fun q => if q < 32 then false else true) :=
  c6_deterministic 0 (fun _ => ⟨false, 0⟩)
    (fun i => if i < 128 then ⟨false, 0⟩ else ⟨true, 1⟩)
    (fun _ => false) (fun q => if q < 32 then false else true)
    (fun i hi => by simp [hi]) (fun q hq => by simp [show q < 32 from hq])

/-- C10 counterexample: the sifter does NOT fail for every input shorter
than 32 — its `bits` argument is only indexed at the matching positions,
so with bases disagreeing everywhere an empty `bits` succeeds. -/
theorem c10_counterexample :
    remove_garbage (List.replicate 32 false) (List.replicate 32 true) [] =
      some [] := by
  decide

/-- C10 (amended): encoder, measurer and sifter process exactly the
first `NUM_QUBITS = 32` slots: encoder and measurer fail (`none`) when
any of their sequence inputs is shorter than 32 and otherwise produce
exactly 32 outputs, ignoring slots past 32; the sifter fails when either
basis sequence is shorter than 32, and on success its output length is
the number of agreeing positions among indices 0–31 (its `bits` input
is only read at the matching positions). -/
theorem c10_fixed_32_slots :
    (∀ bits basis : List Bool,
      bits.length < NUM_QUBITS ∨ basis.length < NUM_QUBITS →
      encode_message bits basis = none) ∧
    (∀ (bits basis : List Bool) (m : List Circuit),
      encode_message bits basis = some m → m.length = NUM_QUBITS) ∧
    (∀ bits basis : List Bool,
      encode_message bits basis =
        encode_message (bits.take NUM_QUBITS) (basis.take NUM_QUBITS)) ∧
    (∀ (msg : List Circuit) (basis : List Bool) (aer : Nat → Bool),
      msg.length < NUM_QUBITS ∨ basis.length < NUM_QUBITS →
      measure_message msg basis aer = none) ∧
    (∀ (msg : List Circuit) (basis : List Bool) (aer : Nat → Bool)
      (r : List Bool),
      measure_message msg basis aer = some r → r.length = NUM_QUBITS) ∧
    (∀ (msg : List Circuit) (basis : List Bool) (aer : Nat → Bool),
      measure_message msg basis aer =
        measure_message (msg.take NUM_QUBITS) (basis.take NUM_QUBITS) aer) ∧
    (∀ a_basis b_basis bits : List Bool,
      a_basis.length < NUM_QUBITS ∨ b_basis.length < NUM_QUBITS →
      remove_garbage a_basis b_basis bits = none) ∧
    (∀ (a_basis b_basis bits k : List Bool),
      remove_garbage a_basis b_basis bits = some k →
      k.length = (List.range' 0 NUM_QUBITS).countP
        (fun q => a_basis.getD q false == b_basis.getD q false)) := by
  refine ⟨?_, ?_, ?_, ?_, ?_, ?_, ?_, ?_⟩
  · intro bits basis hlt
    rcases hlt with hb | hb
    · apply optRange_none _ NUM_QUBITS 0 bits.length (Nat.zero_le _) (by omega)
      have hn : bits[bits.length]? = none := List.getElem?_eq_none (le_refl _)
      cases hbj : basis[bits.length]? <;> simp [hn, hbj]
    · apply optRange_none _ NUM_QUBITS 0 basis.length (Nat.zero_le _) (by omega)
      have hn : basis[basis.length]? = none := List.getElem?_eq_none (le_refl _)
      simp [hn]
  · intro bits basis m hsome
    exact optRange_length _ NUM_QUBITS 0 m hsome
  · intro bits basis
    apply optRange_congr
    intro j hj1 hj2
    have hj : j < NUM_QUBITS := by omega
    simp [List.getElem?_take, hj]
  · intro msg basis aer hlt
    rcases hlt with hb | hb
    · apply optRange_none _ NUM_QUBITS 0 msg.length (Nat.zero_le _) (by omega)
      have hn : msg[msg.length]? = none := List.getElem?_eq_none (le_refl _)
      cases hbj : basis[msg.length]? <;> simp [hn, hbj]
    · apply optRange_none _ NUM_QUBITS 0 basis.length (Nat.zero_le _) (by omega)
      have hn : basis[basis.length]? = none := List.getElem?_eq_none (le_refl _)
      simp [hn]
  · intro msg basis aer r hsome
    exact optRange_length _ NUM_QUBITS 0 r hsome
  · intro msg basis aer
    apply optRange_congr
    intro j hj1 hj2
    have hj : j < NUM_QUBITS := by omega
    simp [List.getElem?_take, hj]
  · intro a_basis b_basis bits hlt
    rcases hlt with hb | hb
    · have hmp := matchPos_none a_basis b_basis NUM_QUBITS 0 a_basis.length
        (Nat.zero_le _) (by omega) (Or.inl (le_refl _))
      simp [remove_garbage, hmp]
    · have hmp := matchPos_none a_basis b_basis NUM_QUBITS 0 b_basis.length
        (Nat.zero_le _) (by omega) (Or.inr (le_refl _))
      simp [remove_garbage, hmp]
  · intro a_basis b_basis bits k hsome
    simp only [remove_garbage, Option.bind_eq_bind, Option.bind_eq_some] at hsome
    obtain ⟨ps, hps, hk⟩ := hsome
    have ha32 : NUM_QUBITS ≤ a_basis.length := by
      by_contra hc
      push_neg at hc
      rw [matchPos_none a_basis b_basis NUM_QUBITS 0 a_basis.length
        (Nat.zero_le _) (by omega) (Or.inl (le_refl _))] at hps
      cases hps
    have hb32 : NUM_QUBITS ≤ b_basis.length := by
      by_contra hc
      push_neg at hc
      rw [matchPos_none a_basis b_basis NUM_QUBITS 0 b_basis.length
        (Nat.zero_le _) (by omega) (Or.inr (le_refl _))] at hps
      cases hps
    rw [matchPos_eq_some a_basis b_basis NUM_QUBITS 0
      (fun j hj => ⟨by omega, by omega⟩)] at hps
    cases hps
    rw [optList_length _ _ k hk, List.countP_eq_length_filter]

/-- C10 witness: each conjunct of the amended claim applied at a
concrete input. -/
theorem c10_fixed_32_slots_witness :
    encode_message [] (List.replicate 32 false) = none ∧
    ((List.range' 0 NUM_QUBITS).map
      (fun i => encodeQubit ((List.replicate 32 false).getD i false)
        ((List.replicate 32 true).getD i false))).length = NUM_QUBITS ∧
    encode_message [true] [false] =
      encode_message ([true].take NUM_QUBITS) ([false].take NUM_QUBITS) ∧
    measure_message [] [] (fun _ => false) = none ∧
    ((List.range' 0 NUM_QUBITS).map
      (fun q => measureQubit ((List.replicate 32 ([] : Circuit)).getD q [])
        ((List.replicate 32 false).getD q false)
        ((fun _ => false) q))).length = NUM_QUBITS ∧
    measure_message [[Gate.x]] [true] (fun _ => false) =
      measure_message ([[Gate.x]].take NUM_QUBITS) ([true].take NUM_QUBITS)
        (fun _ => false) ∧
    remove_garbage [] (List.replicate 32 false) [] = none ∧
    ([] : List Bool).length = (List.range' 0 NUM_QUBITS).countP
      (fun q => (List.replicate 32 false).getD q false ==
        (List.replicate 32 true).getD q false) :=
  ⟨c10_fixed_32_slots.1 [] (List.replicate 32 false) (Or.inl (by decide)),
   c10_fixed_32_slots.2.1 (List.replicate 32 false) (List.replicate 32 true) _
     (encode_message_eq_some _ _ (by decide) (by decide)),
   c10_fixed_32_slots.2.2.1 [true] [false],
   c10_fixed_32_slots.2.2.2.1 [] [] (fun _ => false) (Or.inl (by decide)),
   c10_fixed_32_slots.2.2.2.2.1 (List.replicate 32 ([] : Circuit))
     (List.replicate 32 false) (fun _ => false) _
     (measure_message_eq_some _ _ _ (by decide) (by decide)),
   c10_fixed_32_slots.2.2.2.2.2.1 [[Gate.x]] [true] (fun _ => false),
   c10_fixed_32_slots.2.2.2.2.2.2.1 [] (List.replicate 32 false) []
     (Or.inl (by decide)),
   c10_fixed_32_slots.2.2.2.2.2.2.2 (List.replicate 32 false)
     (List.replicate 32 true) [] [] (by decide)⟩

/-- C8 counterexample: no validation exists anywhere — a mismatched-length
comparator call returns a plain `false` verdict without failing, a
mismatched-length sifter call (33 vs 32) succeeds, and an errorRate of 2
(outside [0,1]) is accepted by the channel, which simply flips the qubit. -/
theorem c8_counterexample :
    check_keys [false] [false, false] = false ∧
    remove_garbage (List.replicate 33 false) (List.replicate 32 false)
      (List.replicate 32 true) = some (List.replicate 32 true) ∧
    simulate_quantum_channel [[]] 2 (fun _ => 0) = [[Gate.x]] := by
  refine ⟨by decide, by decide, by decide⟩

/-- C8 (amended): the core never raises these conditions — the
comparator treats mismatched-length keys as merely unequal, the sifter
succeeds on mismatched lengths whenever both basis sequences reach 32
entries and the bits cover the matching positions, and an errorRate
outside [0,1] is accepted at face value: with draws in `[0,1)`, a rate
≥ 1 flips every qubit and a rate ≤ 0 flips none. -/
theorem c8_no_validation :
    (∀ key1 key2 : List Bool, key1.length ≠ key2.length →
      check_keys key1 key2 = false) ∧
    (∀ a_basis b_basis bits : List Bool,
      NUM_QUBITS ≤ a_basis.length → NUM_QUBITS ≤ b_basis.length →
      NUM_QUBITS ≤ bits.length →
      ∃ k, remove_garbage a_basis b_basis bits = some k) ∧
    (∀ (message : List Circuit) (error_rate : ℚ) (rand : Nat → ℚ),
      1 ≤ error_rate → (∀ i, rand i < 1) →
      simulate_quantum_channel message error_rate rand =
        message.map (fun qc => qc ++ [Gate.x])) ∧
    (∀ (message : List Circuit) (error_rate : ℚ) (rand : Nat → ℚ),
      error_rate ≤ 0 → (∀ i, 0 ≤ rand i) →
      simulate_quantum_channel message error_rate rand = message) := by
  refine ⟨?_, ?_, ?_, ?_⟩
  · intro key1 key2 hlen
    apply decide_eq_false
    intro heq
    exact hlen (congrArg List.length heq)
  · intro a_basis b_basis bits ha hb hbits
    exact ⟨siftedRef a_basis b_basis bits,
      remove_garbage_eq_some a_basis b_basis bits ha hb (fun q hq _ => by omega)⟩
  · intro message error_rate rand her hrand
    exact channelAux_ge_one error_rate rand her hrand message 0
  · intro message error_rate rand her hrand
    exact channelAux_nonpos error_rate rand her hrand message 0

/-- C8 witness: each conjunct of the amended claim applied at a
concrete input. -/
theorem c8_no_validation_witness :
    check_keys [true] [] = false ∧
    (∃ k, remove_garbage (List.replicate 33 false) (List.replicate 32 true)
      (List.replicate 32 false) = some k) ∧
    simulate_quantum_channel [[], [Gate.h]] 2 (fun _ => 0) =
      [[], [Gate.h]].map (fun qc => qc ++ [Gate.x]) ∧
    simulate_quantum_channel [[], [Gate.h]] (-1) (fun _ => 0) =
      [[], [Gate.h]] :=
  ⟨c8_no_validation.1 [true] [] (by decide),
   c8_no_validation.2.1 (List.replicate 33 false) (List.replicate 32 true)
     (List.replicate 32 false) (by decide) (by decide) (by decide),
   c8_no_validation.2.2.1 [[], [Gate.h]] 2 (fun _ => 0) (by norm_num)
     (fun _ => by norm_num),
   c8_no_validation.2.2.2 [[], [Gate.h]] (-1) (fun _ => 0) (by norm_num)
     (fun _ => by norm_num)⟩

/-- Per-slot behaviour of Eve's interception: she records the matching
measurement of the (copied) incoming qubit, the forwarded circuit
prepares the same state as `encode_message` would from her recorded
value and basis (plus her error X when the draw fires), and that error
X changes the forwarded value only in the rectilinear basis. -/
theorem eveQubit_spec (qc : Circuit) (e coin c : Bool) (draw er : ℚ) :
    (eveQubit qc e coin draw er).2 = measureQubit qc e coin ∧
    runCircuit (eveQubit qc e coin draw er).1 =
      runCircuit (encodeQubit (measureQubit qc e coin) e ++
        (if draw < er then [Gate.x] else [])) ∧
    measureQubit (eveQubit qc e coin draw er).1 e c =
      (if e then measureQubit qc e coin
       else xor (measureQubit qc e coin) (decide (draw < er))) := by
  simp only [eveQubit]
  generalize measureQubit qc e coin = m
  by_cases hd : draw < er <;> cases e <;> cases m <;> cases c <;>
    simp [hd] <;> decide

/-- C4 counterexample: with Eve in the diagonal basis and a certain
error draw (errorRate = 1, draw 0), the forwarded qubit [H, X] still
measures to Eve's recorded value 0 in her basis, for either simulator
coin — the appended X does NOT flip the forwarded value of a
diagonal-basis qubit, contradicting the claim's unconditional
"flips the forwarded value with probability errorRate". -/
theorem c4_counterexample :
    simulate_eavesdropping_detailed [[Gate.h, Gate.barrier]] [true] [true] 1
      (fun _ => false) (fun _ => 0) = some ([[Gate.h, Gate.x]], [false]) ∧
    measureQubit [Gate.h, Gate.x] true false = false ∧
    measureQubit [Gate.h, Gate.x] true true = false := by
  refine ⟨by decide, by decide, by decide⟩

/-- C4 (amended): per slot, Eve measures an independent copy of
`states[i]` in her basis (the original circuit is read, not modified),
records it into `eveResults[i]`, and the forwarded circuit prepares the
very state `encode(eveResults[i], eveBasis[i])` would, plus an appended
X when her error draw fires — but that X flips the forwarded value only
when `eveBasis[i]` is rectilinear; for a diagonal basis it leaves the
forwarded value unchanged. -/
theorem c4_eve_per_slot (message : List Circuit)
    (eavesdropper_basis alice_basis : List Bool) (error_rate : ℚ)
    (coins : Nat → Bool) (draws : Nat → ℚ)
    (out : List Circuit) (results : List Bool)
    (hsome : simulate_eavesdropping_detailed message eavesdropper_basis
      alice_basis error_rate coins draws = some (out, results)) :
    out.length = message.length ∧ results.length = message.length ∧
    ∀ i, i < message.length →
      results.getD i false =
        measureQubit (message.getD i []) (eavesdropper_basis.getD i false)
          (coins i) ∧
      runCircuit (out.getD i []) =
        runCircuit (encodeQubit (results.getD i false)
          (eavesdropper_basis.getD i false) ++
          (if draws i < error_rate then [Gate.x] else [])) ∧
      measureQubit (out.getD i []) (eavesdropper_basis.getD i false)
        (coins i) =
        (if eavesdropper_basis.getD i false then results.getD i false
         else xor (results.getD i false) (decide (draws i < error_rate))) := by
  simp only [simulate_eavesdropping_detailed, Option.bind_eq_bind,
    Option.bind_eq_some, Option.pure_def, Option.some.injEq] at hsome
  obtain ⟨res, hres, houtres⟩ := hsome
  have hout : res.map Prod.fst = out := congrArg Prod.fst houtres
  have hresults : res.map Prod.snd = results := congrArg Prod.snd houtres
  subst hout
  subst hresults
  have hlen : res.length = message.length := optRange_length _ _ _ _ hres
  refine ⟨by simp [hlen], by simp [hlen], ?_⟩
  intro i hi
  have hi' : i < res.length := by omega
  have hfi := optRange_get _ message.length 0 res hres i hi'
  simp only [Nat.zero_add, Option.bind_eq_bind, Option.bind_eq_some,
    Option.some.injEq] at hfi
  obtain ⟨av, hav, ebv, hebv, qcv, hqcv, hv⟩ := hfi
  have hebD : eavesdropper_basis.getD i false = ebv := by
    rw [List.getD_eq_getElem?_getD, hebv]
    rfl
  have hqcD : message.getD i [] = qcv := by
    rw [List.getD_eq_getElem?_getD, hqcv]
    rfl
  have houtD : (res.map Prod.fst).getD i [] = (res.get ⟨i, hi'⟩).1 := by
    rw [List.getD_eq_getElem _ _ (by simpa using hi')]
    simp
  have hresD : (res.map Prod.snd).getD i false = (res.get ⟨i, hi'⟩).2 := by
    rw [List.getD_eq_getElem _ _ (by simpa using hi')]
    simp
  rw [hebD, hqcD, houtD, hresD, ← hv]
  obtain ⟨h1, h2, h3⟩ := eveQubit_spec qcv ebv (coins i) (coins i)
    (draws i) error_rate
  exact ⟨h1, by rw [h2, h1], by rw [h3, h1]⟩

/-- C4 witness: the per-slot description applied to a concrete
one-qubit interception. -/
theorem c4_eve_per_slot_witness :
    ([[Gate.h, Gate.x]] : List Circuit).length =
      ([[Gate.h, Gate.barrier]] : List Circuit).length ∧
    ([false] : List Bool).length =
      ([[Gate.h, Gate.barrier]] : List Circuit).length ∧
    ∀ i, i < ([[Gate.h, Gate.barrier]] : List Circuit).length →
      ([false] : List Bool).getD i false =
        measureQubit (([[Gate.h, Gate.barrier]] : List Circuit).getD i [])
          (([true] : List Bool).getD i false) false ∧
      runCircuit (([[Gate.h, Gate.x]] : List Circuit).getD i []) =
        runCircuit (encodeQubit (([false] : List Bool).getD i false)
          (([true] : List Bool).getD i false) ++
          (if (0 : ℚ) < 1 then [Gate.x] else [])) ∧
      measureQubit (([[Gate.h, Gate.x]] : List Circuit).getD i [])
        (([true] : List Bool).getD i false) false =
        (if ([true] : List Bool).getD i false
         then ([false] : List Bool).getD i false
         else xor (([false] : List Bool).getD i false)
           (decide ((0 : ℚ) < 1))) :=
  c4_eve_per_slot [[Gate.h, Gate.barrier]] [true] [true] 1 (fun _ => false)
    (fun _ => 0) [[Gate.h, Gate.x]] [false] (by decide)
